import Mathlib

/-!
# Verification of `build_resume_onepage.py`

A shallow embedding of the resume one-page builder. Lines are `String`s
(lists of `Char`); the Python regular expressions used by the program
(email / phone / URL / header / bullet / horizontal-rule patterns) are
embedded as executable matchers that reproduce the leftmost-match,
greedy-with-backtracking semantics of the specific patterns in the source.
Text is modeled as ASCII single-line text: Python's Unicode-aware case
mapping, whitespace classes and `str.strip` are modeled by their ASCII
restrictions, which coincide with the Python behavior on ASCII input.

The external collaborators (the DOCX writer, LibreOffice conversion and
the PDF page counter) are outside the program; the fit-to-one-page
controller is embedded with the page count of an attempt supplied by an
oracle function `pages : Nat → List String → Nat` (formatting-profile
index and line sequence determine the rendered document).

Definitions named `claim...` are NOT translations of the source: they
formalize the natural-language specification's wording, to be compared
against the behavior of the embedded source functions.
-/

namespace Resume

/-! ## Character classes (ASCII restrictions of the Python classes) -/

/-- ASCII whitespace, the ASCII part of Python's `\s` and `str.strip`. -/
def isWsChar (c : Char) : Bool :=
  c = ' ' || c = '\t' || c = '\n' || c = '\r' || c = '\x0b' || c = '\x0c'

/-- `[A-Za-z]`. -/
def isLetterChar (c : Char) : Bool := c.isAlpha

/-- `\d` (ASCII). -/
def isDigitChar (c : Char) : Bool := c.isDigit

/-- The email local-part class `[A-Za-z0-9._%+\-]`. -/
def isEmailLocalChar (c : Char) : Bool :=
  c.isAlphanum || c = '.' || c = '_' || c = '%' || c = '+' || c = '-'

/-- The domain/host class `[A-Za-z0-9.\-]`, used by both the email domain
and the URL host. -/
def isDomChar (c : Char) : Bool := c.isAlphanum || c = '.' || c = '-'

/-- The phone separator class `[\s\-\.]`. -/
def isSepChar (c : Char) : Bool := isWsChar c || c = '-' || c = '.'

/-- The URL path class `[^\s|,)]`. -/
def isPathChar (c : Char) : Bool := !(isWsChar c) && c ≠ '|' && c ≠ ',' && c ≠ ')'

/-- Length of the maximal prefix satisfying `p`. -/
def countWhile (p : Char → Bool) (cs : List Char) : Nat :=
  (cs.takeWhile p).length

/-! ## String helpers -/

/-- `str.rstrip()` (ASCII whitespace). -/
def rstripCh (l : List Char) : List Char :=
  (l.reverse.dropWhile isWsChar).reverse

/-- `str.lstrip()` (ASCII whitespace). -/
def lstripCh (l : List Char) : List Char := l.dropWhile isWsChar

/-- `str.strip()` (ASCII whitespace). -/
def stripCh (l : List Char) : List Char := rstripCh (lstripCh l)

def stripStr (s : String) : String := String.mk (stripCh s.data)

/-- Substring containment, Python's `needle in hay`. -/
def containsSub (hay pat : List Char) : Bool :=
  pat.isPrefixOf hay ||
    match hay with
    | [] => false
    | _ :: t => containsSub t pat

/-- `str.upper()` (ASCII). -/
def upperCh (l : List Char) : List Char := l.map Char.toUpper

/-- `str.lower()` (ASCII). -/
def lowerCh (l : List Char) : List Char := l.map Char.toLower

/-! ## `BOLD_RE = \*\*(.+?)\*\*`: splitting a line into bold segments,
and `strip_md_bold` -/

/-- Find the non-greedy close for `\*\*(.+?)\*\*`: the length of the
minimal nonempty run of non-newline characters followed by a literal
`**`.  The bold content is the first `n` characters; the text after the
closing `**` resumes at offset `n + 2`. -/
def findCloseLen : List Char → Option Nat
  | [] => none
  | c :: rest =>
    if c = '\n' then none
    else
      match rest with
      | '*' :: '*' :: _ => some 1
      | _ => (findCloseLen rest).map (fun n => n + 1)

/-- `re.sub(r"\*\*(.+?)\*\*", r"\1", s)`: replace each bold span by its
content, scanning left to right.  The list shrinks at every step, so the
`fuel` parameter (the initial length at the top call) never runs out; it
only makes the recursion structural. -/
def subBoldGo : Nat → List Char → List Char
  | _, [] => []
  | 0, l => l
  | fuel + 1, '*' :: '*' :: rest =>
    match findCloseLen rest with
    | some n => rest.take n ++ subBoldGo fuel (rest.drop (n + 2))
    | none => '*' :: subBoldGo fuel ('*' :: rest)
  | fuel + 1, c :: rest => c :: subBoldGo fuel rest

def subBold (l : List Char) : List Char := subBoldGo l.length l

/-- `strip_md_bold`: remove `**` pairs, then strip whitespace. -/
def stripMdBold (l : List Char) : List Char := stripCh (subBold l)

def stripMdBoldStr (s : String) : String := String.mk (stripMdBold s.data)

/-! ## Token matchers

Each `match...At` function matches the corresponding pattern against a
prefix of its argument and returns the number of characters matched (the
match chosen by Python's backtracking engine: alternatives in source
order, greedy quantifiers trying longer first). `searchGo` reproduces
`re.search`: leftmost starting offset first.
-/

/-- One backtracking split for `[C]+\.[A-Za-z]{2,}`: bounded-part length
`q`, then a literal `.`, then a maximal run of at least two letters. -/
def tryDomSplit (cs : List Char) (q : Nat) : Option Nat :=
  if cs.get? q = some '.' then
    let t := countWhile isLetterChar (cs.drop (q + 1))
    if 2 ≤ t then some (q + 1 + t) else none
  else none

/-- Try splits `q, q-1, ..., 1` in that order (the greedy engine prefers
the longest `[C]+` part). -/
def domDown (cs : List Char) : Nat → Option Nat
  | 0 => none
  | q + 1 =>
    match tryDomSplit cs (q + 1) with
    | some n => some n
    | none => domDown cs q

/-- Match `[C]+\.[A-Za-z]{2,}` (with `C` the domain class) at the head of
`cs`; returns the matched length. -/
def matchDomAt (cs : List Char) : Option Nat :=
  let r := countWhile isDomChar cs
  if r = 0 then none else domDown cs (r - 1)

/-- Match `EMAIL_RE = [A-Za-z0-9._%+\-]+@[A-Za-z0-9.\-]+\.[A-Za-z]{2,}`
at the head of `cs`. -/
def matchEmailAt (cs : List Char) : Option Nat :=
  let l := countWhile isEmailLocalChar cs
  if l = 0 then none
  else
    match cs.get? l with
    | some '@' => (matchDomAt (cs.drop (l + 1))).map (fun d => l + 1 + d)
    | _ => none

/-- Pieces of the phone pattern
`(?:\+?1[\s\-\.]?)?(?:\(\d{3}\)|\d{3})[\s\-\.]?\d{3}[\s\-\.]?\d{4}`. -/
inductive PhonePiece where
  | plusSign
  | oneDigit
  | sep
  | paren3
  | dig3
  | dig4
deriving DecidableEq

/-- Match one phone piece at the head of `cs`, returning consumed length. -/
def eatPiece : PhonePiece → List Char → Option Nat
  | .plusSign, c :: _ => if c = '+' then some 1 else none
  | .oneDigit, c :: _ => if c = '1' then some 1 else none
  | .sep, c :: _ => if isSepChar c then some 1 else none
  | .paren3, '(' :: a :: b :: c :: ')' :: _ =>
    if isDigitChar a && isDigitChar b && isDigitChar c then some 5 else none
  | .dig3, a :: b :: c :: _ =>
    if isDigitChar a && isDigitChar b && isDigitChar c then some 3 else none
  | .dig4, a :: b :: c :: d :: _ =>
    if isDigitChar a && isDigitChar b && isDigitChar c && isDigitChar d then some 4 else none
  | _, _ => none

def eatSeq : List PhonePiece → List Char → Option Nat
  | [], _ => some 0
  | p :: ps, cs =>
    match eatPiece p cs with
    | some n => (eatSeq ps (cs.drop n)).map (fun m => n + m)
    | none => none

/-- All alternative expansions of the phone pattern, in the order the
backtracking engine tries them: the optional `\+?1[\s\-\.]?` country
part (present variants first), then `\(\d{3}\)` before `\d{3}`, then
each optional separator present before absent. -/
def phoneShapes : List (List PhonePiece) :=
  [[PhonePiece.plusSign, .oneDigit, .sep], [PhonePiece.plusSign, .oneDigit],
   [PhonePiece.oneDigit, .sep], [PhonePiece.oneDigit], []].flatMap (fun country =>
  [[PhonePiece.paren3], [PhonePiece.dig3]].flatMap (fun core =>
  [[PhonePiece.sep], []].flatMap (fun s1 =>
  [[PhonePiece.sep], []].map (fun s2 =>
  country ++ core ++ s1 ++ [PhonePiece.dig3] ++ s2 ++ [PhonePiece.dig4]))))

/-- Match `PHONE_RE` at the head of `cs`. -/
def matchPhoneAt (cs : List Char) : Option Nat :=
  phoneShapes.findSome? (fun shape => eatSeq shape cs)

/-- Scheme and `www.` alternatives of `URL_RE`, in engine order. -/
def urlHeads : List (List Char) :=
  ["https://".data, "http://".data, []].flatMap (fun scheme =>
  ["www.".data, []].map (fun w => scheme ++ w))

/-- Optional path `(?:/[^\s|,)]+)?`: consumed length (0 when absent). -/
def pathLen : List Char → Nat
  | '/' :: rest =>
    let t := countWhile isPathChar rest
    if 1 ≤ t then 1 + t else 0
  | _ => 0

/-- Match
`URL_RE = (?:https?://)?(?:www\.)?[A-Za-z0-9.-]+\.[A-Za-z]{2,}(?:/[^\s|,)]+)?`
at the head of `cs`. -/
def matchUrlAt (cs : List Char) : Option Nat :=
  urlHeads.findSome? (fun hd =>
    if hd.isPrefixOf cs then
      (matchDomAt (cs.drop hd.length)).map (fun d =>
        hd.length + d + pathLen (cs.drop (hd.length + d)))
    else none)

/-- `re.search(pattern, s, pos)`: try offsets `pos, pos+1, ...`; returns
`(start, end)` of the first (leftmost) match. -/
def searchGo (f : List Char → Option Nat) : Nat → List Char → Option (Nat × Nat)
  | _, [] => none
  | pos, c :: rest =>
    match f (c :: rest) with
    | some d => some (pos, pos + d)
    | none => searchGo f (pos + 1) rest

def searchEmail (cs : List Char) (i : Nat) : Option (Nat × Nat) :=
  searchGo matchEmailAt i (cs.drop i)

def searchPhone (cs : List Char) (i : Nat) : Option (Nat × Nat) :=
  searchGo matchPhoneAt i (cs.drop i)

def searchUrl (cs : List Char) (i : Nat) : Option (Nat × Nat) :=
  searchGo matchUrlAt i (cs.drop i)

/-- The text of a match `(s, e)` in `cs`. -/
def sliceCh (cs : List Char) (s e : Nat) : List Char :=
  (cs.drop s).take (e - s)

/-- `URL_RE.findall(text)`: non-overlapping matches left to right (the
pattern is a single group spanning the whole match). `fuel` bounds the
number of matches; every match is nonempty, so `cs.length + 1` suffices. -/
def findallGo (cs : List Char) : Nat → Nat → List (List Char)
  | _, 0 => []
  | i, fuel + 1 =>
    match searchUrl cs i with
    | some (s, e) =>
      if i < e then sliceCh cs s e :: findallGo cs e fuel
      else [sliceCh cs s e]
    | none => []

def findallUrl (cs : List Char) : List (List Char) :=
  findallGo cs 0 (cs.length + 1)

/-! ## `normalize_url` and `normalize_tel` -/

/-- `normalize_url`: strip, then prepend `https://` unless a scheme is
already present. -/
def normalizeUrl (url : String) : String :=
  let u := stripCh url.data
  if "http://".data.isPrefixOf u || "https://".data.isPrefixOf u then String.mk u
  else String.mk ("https://".data ++ u)

/-- `normalize_tel`: keep digits; a 10-digit number gains a leading `1`;
an 11-digit number starting with `1` is formatted `+<digits>`. -/
def normalizeTel (phone : String) : String :=
  let digits := phone.data.filter isDigitChar
  let digits := if digits.length = 10 then '1' :: digits else digits
  if digits.head? = some '1' ∧ digits.length = 11 then String.mk ('+' :: digits)
  else String.mk digits

/-! ## Line recognizers (`H2_RE`, `H3_RE`, `BULLET_RE`, `HR_RE`) -/

/-- Group 1 of `H3_RE = ^###\s+(.+)$` when the line matches (the greedy
`\s+` backs off one character when nothing follows the whitespace run). -/
def h3Group (cs : List Char) : Option (List Char) :=
  match cs with
  | '#' :: '#' :: '#' :: rest =>
    let w := countWhile isWsChar rest
    if w = 0 then none
    else if rest.drop w ≠ [] then some (rest.drop w)
    else if 2 ≤ w then some (rest.drop (w - 1))
    else none
  | _ => none

/-- Does `H2_RE = ^##\s+(.+)$` match?  (`###...` lines do not match
because `#` is not whitespace.) -/
def isH2 (s : String) : Bool :=
  match s.data with
  | '#' :: '#' :: rest =>
    let w := countWhile isWsChar rest
    decide (w ≠ 0) && (decide (rest.drop w ≠ []) || decide (2 ≤ w))
  | _ => false

def isH3 (s : String) : Bool := (h3Group s.data).isSome

/-- The bold-stripped H3 title of a line, when it is an H3 line. -/
def h3TitleOf (s : String) : Option String :=
  (h3Group s.data).map (fun g => String.mk (stripMdBold g))

/-- Does `BULLET_RE = ^\s*-\s+(.+)$` match? -/
def isBulletLine (s : String) : Bool :=
  let cs := s.data.dropWhile isWsChar
  match cs with
  | '-' :: rest =>
    let w := countWhile isWsChar rest
    decide (w ≠ 0) && (decide (rest.drop w ≠ []) || decide (2 ≤ w))
  | _ => false

/-- Does `HR_RE = ^\s*-{3,}\s*$` match? -/
def isHR (s : String) : Bool :=
  let cs := s.data.dropWhile isWsChar
  let d := countWhile (fun c => c = '-') cs
  decide (3 ≤ d) && (cs.drop d).all isWsChar

/-! ## `normalize_whitespace` -/

/-- The per-line cleanup
`re.sub(r"\s{2,}$", "", ln.rstrip())`: `rstrip` already removes every
trailing whitespace character, so the substitution (which would drop a
trailing run of two or more whitespace characters) finds nothing. -/
def dropTrail2 (l : List Char) : List Char :=
  let t := (l.reverse.takeWhile isWsChar).length
  if 2 ≤ t then (l.reverse.dropWhile isWsChar).reverse else l

def cleanLine (s : String) : String := String.mk (dropTrail2 (rstripCh s.data))

/-- `ln.strip() == ""`. -/
def isBlankLine (s : String) : Bool := s.data.all isWsChar

/-- The loop body of `normalize_whitespace`, with the running count of
consecutive blank lines as an explicit parameter.  A blank line is
appended (as `""`) only when the count was zero; horizontal rules are
skipped without touching the count. -/
def normGo (blank : Nat) : List String → List String
  | [] => []
  | ln :: rest =>
    if isHR (cleanLine ln) then normGo blank rest
    else if isBlankLine (cleanLine ln) then
      if blank = 0 then "" :: normGo (blank + 1) rest else normGo (blank + 1) rest
    else cleanLine ln :: normGo 0 rest

def normalizeWhitespace (lines : List String) : List String := normGo 0 lines

/-! ## Trim rules -/

/-- `drop_section`: remove each H3 whose bold-stripped title equals
`sectionTitle`, together with the lines up to (not including) the next
H3 or H2.  The list shrinks at every step, so the `fuel` parameter (the
initial length at the top call) never runs out. -/
def dropSectionGo (sectionTitle : String) : Nat → List String → List String
  | _, [] => []
  | 0, l => l
  | fuel + 1, ln :: rest =>
    if h3TitleOf ln = some sectionTitle then
      dropSectionGo sectionTitle fuel (rest.dropWhile (fun l => !(isH3 l) && !(isH2 l)))
    else
      ln :: dropSectionGo sectionTitle fuel rest

def dropSection (sectionTitle : String) (lines : List String) : List String :=
  dropSectionGo sectionTitle lines.length lines

/-- `"TECHNICAL PROJECT" in line.upper()`. -/
def isTechProjLine (s : String) : Bool :=
  containsSub (upperCh s.data) "TECHNICAL PROJECT".data

/-- The loop of `keep_only_projects`, with the mutable state
(`in_projects`, `skipping`, `project_count`) explicit.  Note that
`project_count` is never reset, and `in_projects` stays set when another
matching section header is seen. -/
def keepGo (keepN : Nat) (inProj skipping : Bool) (cnt : Nat) : List String → List String
  | [] => []
  | ln :: rest =>
    if isH2 ln && isTechProjLine ln then
      ln :: keepGo keepN true false cnt rest
    else if inProj && isH2 ln then
      ln :: keepGo keepN false false cnt rest
    else if inProj && isH3 ln then
      if cnt + 1 ≤ keepN then ln :: keepGo keepN inProj false (cnt + 1) rest
      else keepGo keepN inProj true (cnt + 1) rest
    else if inProj && skipping then
      keepGo keepN inProj skipping cnt rest
    else
      ln :: keepGo keepN inProj skipping cnt rest

def keepOnlyProjects (lines : List String) (keepN : Nat) : List String :=
  keepGo keepN false false 0 lines

/-- The loop of `trim_bullets_under`, with the mutable state
(`in_target`, `kept`) explicit.  The target scope ends only at the next
H3 line; every non-H3 line (including section headers) stays in scope. -/
def trimGo (headerTitle : String) (inTarget : Bool) (kept keepK : Nat) :
    List String → List String
  | [] => []
  | ln :: rest =>
    match h3TitleOf ln with
    | some t => ln :: trimGo headerTitle (t = headerTitle) 0 keepK rest
    | none =>
      if inTarget && isBulletLine ln then
        if kept + 1 ≤ keepK then ln :: trimGo headerTitle inTarget (kept + 1) keepK rest
        else trimGo headerTitle inTarget (kept + 1) keepK rest
      else ln :: trimGo headerTitle inTarget kept keepK rest

def trimBulletsUnder (lines : List String) (headerTitle : String) (keepK : Nat) :
    List String :=
  trimGo headerTitle false 0 keepK lines

/-- `TRIM_RULES`' tagged variants. -/
inductive TrimRule where
  | dropSec (title : String)
  | keepProjects (n : Nat)
  | trimBullets (title : String) (k : Nat)
deriving DecidableEq

/-- The fixed rule list `TRIM_RULES`. -/
def TRIM_RULES : List TrimRule :=
  [TrimRule.dropSec "Other Professional Experience",
   TrimRule.keepProjects 2,
   TrimRule.trimBullets "Technical & IT Support Roles" 3,
   TrimRule.trimBullets "Windows Event Monitoring & Mini SOC Lab" 2,
   TrimRule.trimBullets "pfSense Firewall & Network Segmentation Lab" 2,
   TrimRule.trimBullets "Small Business IT & Security Assessments" 1]

/-- `apply_trim_rule`. -/
def applyTrimRule (lines : List String) : TrimRule → List String
  | .dropSec t => dropSection t lines
  | .keepProjects n => keepOnlyProjects lines n
  | .trimBullets t k => trimBulletsUnder lines t k

/-! ## Styled runs and the inline span renderer (`add_runs_with_bold`) -/

/-- A styled run: plain text, or a hyperlink (`add_hyperlink`) with a
target, display text and bold flag. -/
inductive Run where
  | plain (text : String) (bold : Bool)
  | link (target : String) (text : String) (bold : Bool)
deriving DecidableEq

/-- A paragraph is the ordered list of runs added to it. -/
abbrev Para := List Run

/-- `add_plain`: empty strings add nothing. -/
def addPlain (s : List Char) (bold : Bool) : List Run :=
  if s = [] then [] else [Run.plain (String.mk s) bold]

/-- Split a line into `(isBold, segment)` pieces according to
`BOLD_RE.finditer`: bold groups are the non-greedy `\*\*(.+?)\*\*`
matches, plain segments are the maximal gaps between them. -/
def boldSplitGo (acc : List Char) : Nat → List Char → List (Bool × List Char)
  | _, [] => if acc = [] then [] else [(false, acc.reverse)]
  | 0, l => if acc = [] then [(false, l)] else [(false, acc.reverse ++ l)]
  | fuel + 1, '*' :: '*' :: rest =>
    match findCloseLen rest with
    | some n =>
      (if acc = [] then [] else [(false, acc.reverse)]) ++
        (true, rest.take n) :: boldSplitGo [] fuel (rest.drop (n + 2))
    | none => boldSplitGo ('*' :: '*' :: acc) fuel rest
  | fuel + 1, c :: rest => boldSplitGo (c :: acc) fuel rest

def boldSplit (cs : List Char) : List (Bool × List Char) :=
  boldSplitGo [] cs.length cs

/-- The kind tag of a token candidate. -/
inductive TokKind where
  | email
  | phone
  | url
deriving DecidableEq

/-- The sort rank used for the same-start tie-break:
`{"email": 0, "phone": 1, "url": 2}`. -/
def rankOf : TokKind → Nat
  | .email => 0
  | .phone => 1
  | .url => 2

/-- Strictly smaller `(start, rank)` key. -/
def betterCand (a b : TokKind × Nat × Nat) : Bool :=
  a.2.1 < b.2.1 || (a.2.1 = b.2.1 && rankOf a.1 < rankOf b.1)

/-- `candidates.sort(key=(start, rank))[0]`: the minimal candidate of the
(at most three) search results, first-listed winning ties — equivalent to
taking the head of Python's stable ascending sort. -/
def chooseNext (em pm um : Option (Nat × Nat)) : Option (TokKind × Nat × Nat) :=
  let cands := (em.map (fun p => (TokKind.email, p))).toList ++
      (pm.map (fun p => (TokKind.phone, p))).toList ++
      (um.map (fun p => (TokKind.url, p))).toList
  cands.foldl (fun best c =>
    match best with
    | none => some c
    | some b => if betterCand c b then some c else some b) none

/-- The per-segment scanning loop of `add_runs_with_bold`.  `i` is the
current offset into `seg`; each iteration searches the three token
patterns from `i`, picks the earliest (same-start ties: email, phone,
url), emits the plain gap and the linked token, and resumes at the match
end.  Every token match is nonempty so the offset strictly increases;
`fuel` (`seg.length + 1` at the top call) bounds the iteration count. -/
def scanSeg (seg : List Char) (isBoldSeg forceBold : Bool) : Nat → Nat → List Run
  | _, 0 => []
  | i, fuel + 1 =>
    let bold := forceBold || isBoldSeg
    match chooseNext (searchEmail seg i) (searchPhone seg i) (searchUrl seg i) with
    | none => addPlain (seg.drop i) bold
    | some (kind, s, e) =>
      let gap := addPlain (sliceCh seg i s) bold
      let token := String.mk (sliceCh seg s e)
      let tokenRuns :=
        match kind with
        | .email => [Run.link ("mailto:" ++ token) token bold]
        | .phone => [Run.link ("tel:" ++ normalizeTel token) token bold]
        | .url =>
          if token.data.contains '@' then addPlain token.data bold
          else [Run.link (normalizeUrl token) token bold]
      if i < e then gap ++ tokenRuns ++ scanSeg seg isBoldSeg forceBold e fuel
      else gap ++ tokenRuns

/-- `add_runs_with_bold`: split by bold markers, then scan each segment
for email/phone/url tokens. -/
def addRunsWithBold (text : String) (forceBold : Bool) : List Run :=
  (boldSplit text.data).flatMap (fun p =>
    scanSeg p.2 p.1 forceBold 0 (p.2.length + 1))

/-! ## `flush_header_block` -/

inductive PartKind where
  | email
  | phone
  | url
deriving DecidableEq

/-- `" ".join(header_lines)`. -/
def headerText (hl : List String) : String := String.intercalate " " hl

/-- The matched text of the first email in the joined header text. -/
def emailTokOf (hl : List String) : Option String :=
  (searchEmail (headerText hl).data 0).map (fun p =>
    String.mk (sliceCh (headerText hl).data p.1 p.2))

/-- The matched text of the first phone number in the joined header text. -/
def phoneTokOf (hl : List String) : Option String :=
  (searchPhone (headerText hl).data 0).map (fun p =>
    String.mk (sliceCh (headerText hl).data p.1 p.2))

/-- `URL_RE.findall` over the joined header text. -/
def urlsOf (hl : List String) : List String :=
  (findallUrl (headerText hl).data).map String.mk

def hasLinkedinSub (u : String) : Bool := containsSub (lowerCh u.data) "linkedin.com".data
def hasGithubSub (u : String) : Bool := containsSub (lowerCh u.data) "github.com".data

/-- The LinkedIn/GitHub/other classification loop over the found URLs:
a URL containing `linkedin.com` (lowercased) is the LinkedIn URL if none
was chosen yet; otherwise one containing `github.com` is the GitHub URL
if none was chosen yet; everything else is an "other" URL. -/
def classifyGo (li gh : Option String) (others : List String) :
    List String → Option String × Option String × List String
  | [] => (li, gh, others)
  | u :: rest =>
    if hasLinkedinSub u && li.isNone then classifyGo (some u) gh others rest
    else if hasGithubSub u && gh.isNone then classifyGo li (some u) others rest
    else classifyGo li gh (others ++ [u]) rest

def classifyUrls (urls : List String) : Option String × Option String × List String :=
  classifyGo none none [] urls

def linkedinOf (hl : List String) : Option String := (classifyUrls (urlsOf hl)).1
def githubOf (hl : List String) : Option String := (classifyUrls (urlsOf hl)).2.1

/-- A header line containing none of email/phone/url. -/
def isTokenFree (l : String) : Bool :=
  (searchEmail l.data 0).isNone && (searchPhone l.data 0).isNone &&
    (searchUrl l.data 0).isNone

/-- `location_line`: the first token-free header line, stripped. -/
def locOf (hl : List String) : Option String :=
  (hl.find? isTokenFree).map stripStr

/-- The location paragraph(s): one paragraph when a token-free line was
found and is nonempty (Python truthiness of `location_line`). -/
def locParasOf (hl : List String) : List Para :=
  match locOf hl with
  | some lc => if lc ≠ "" then [addRunsWithBold lc false] else []
  | none => []

/-- The `parts` list: first email, first phone, the LinkedIn URL, the
GitHub URL — in that fixed order, regardless of their order in the
source text.  Other URLs never enter `parts`. -/
def partsOf (hl : List String) : List (PartKind × String) :=
  ((emailTokOf hl).map (fun v => (PartKind.email, v))).toList ++
    ((phoneTokOf hl).map (fun v => (PartKind.phone, v))).toList ++
    ((linkedinOf hl).map (fun v => (PartKind.url, v))).toList ++
    ((githubOf hl).map (fun v => (PartKind.url, v))).toList

/-- The separator run `" | "`. -/
def sepRun : Run := Run.plain " | " false

/-- One clickable chunk of the consolidated line. -/
def linkForPart (li gh : Option String) : PartKind × String → Run
  | (.email, v) => Run.link ("mailto:" ++ v) v false
  | (.phone, v) => Run.link ("tel:" ++ normalizeTel v) v false
  | (.url, v) =>
    let label := if li = some v then "LinkedIn" else if gh = some v then "GitHub" else v
    Run.link (normalizeUrl v) label false

/-- The consolidated contact paragraph: the parts' links joined by the
literal `" | "` separator (no separator before the first). -/
def consolPara (li gh : Option String) : List (PartKind × String) → Para
  | [] => []
  | p :: ps => linkForPart li gh p :: ps.flatMap (fun q => [sepRun, linkForPart li gh q])

def consolParaOf (hl : List String) : Para :=
  consolPara (linkedinOf hl) (githubOf hl) (partsOf hl)

/-- `flush_header_block`: on a nonempty buffered header block, emit the
location paragraph (when a nonempty token-free line exists), then either
the single consolidated contact paragraph (when any of email / phone /
LinkedIn / GitHub was extracted) or every header line rendered through
the span renderer. -/
def flushHeaderBlock (hl : List String) : List Para :=
  if hl = [] then []
  else
    locParasOf hl ++
      (if partsOf hl = [] then hl.map (fun l => addRunsWithBold (stripStr l) false)
       else [consolParaOf hl])

/-! ## The fit-to-one-page controller (`main`)

The DOCX writing and LibreOffice conversion are external; what `main`
observes of them is the page count of the document rendered from the
current line sequence under the current formatting profile, supplied
here by the oracle `pages : Nat → List String → Nat` (profile index,
line sequence).  A `RunResult` records the exit code, the lines printed
to standard output, the attempt counter and the line sequence used by
each render attempt (each attempt writes the DOCX/PDF artifacts; nothing
ever deletes them, so a nonempty `attemptLines` means output is left on
disk). -/

structure RunResult where
  exitCode : Nat
  printed : List String
  attempts : Nat
  attemptLines : List (List String)
deriving DecidableEq

/-- There are two formatting presets; their numeric contents (margins,
font sizes, spacings) are consumed only by the external document writer
and are identified here by their index in `FMT_PRESETS`. -/
def fmtIndices : List Nat := [0, 1]

def usageMsg : String :=
  "Usage: python build_resume_onepage.py resume.md out.docx out.pdf"

/-- `f"Markdown not found: {md_path}"` (path resolution is an external
filesystem operation, modeled as the identity). -/
def notFoundMsg (argv : List String) : String :=
  "Markdown not found: " ++ (argv.get? 1).getD ""

def okNoTrimMsg (n : Nat) : String :=
  "OK: 1 page (no trimming). Attempts: " ++ toString n

/-- The Python `repr` of a `TRIM_RULES` tuple. -/
def ruleRepr : TrimRule → String
  | .dropSec t => "(\x27DROP_SECTION\x27, \x27" ++ t ++ "\x27)"
  | .keepProjects n => "(\x27KEEP_ONLY_PROJECTS\x27, " ++ toString n ++ ")"
  | .trimBullets t k =>
    "(\x27TRIM_BULLETS_UNDER\x27, (\x27" ++ t ++ "\x27, " ++ toString k ++ "))"

def okTrimMsg (r : TrimRule) (n : Nat) : String :=
  "OK: 1 page after trimming rule: " ++ ruleRepr r ++ ". Attempts: " ++ toString n

def exhaustMsg1 : String := "Could not reach 1 page with current rules."

def exhaustMsg2 : String :=
  "Last output was generated anyway; consider trimming one more bullet under IT Support Roles."

/-- The inner rule loop of `main` for one formatting profile: apply the
next rule to the current sequence (cumulatively), re-normalize, render,
and stop with exit code 0 on a one-page result.  Returns the terminal
result, or the updated attempt counter and attempt log when the rules
are exhausted. -/
def tryRules (pages : Nat → List String → Nat) (f : Nat) :
    List String → List TrimRule → Nat → List (List String) →
      Option RunResult × Nat × List (List String)
  | _, [], att, acc => (none, att, acc)
  | cur, r :: rs, att, acc =>
    let nxt := normalizeWhitespace (applyTrimRule cur r)
    let att1 := att + 1
    let acc1 := acc ++ [nxt]
    if pages f nxt = 1 then (some ⟨0, [okTrimMsg r att1], att1, acc1⟩, att1, acc1)
    else tryRules pages f nxt rs att1 acc1

/-- The outer profile loop of `main`: for each profile, first try the
untrimmed base sequence, then the rule loop; when every profile is
exhausted, print the failure message plus the suggestion and exit 3. -/
def runProfiles (pages : Nat → List String → Nat) (base : List String) :
    List Nat → Nat → List (List String) → RunResult
  | [], att, acc => ⟨3, [exhaustMsg1, exhaustMsg2], att, acc⟩
  | f :: fs, att, acc =>
    let att1 := att + 1
    let acc1 := acc ++ [base]
    if pages f base = 1 then ⟨0, [okNoTrimMsg att1], att1, acc1⟩
    else
      match tryRules pages f base TRIM_RULES att1 acc1 with
      | (some r, _, _) => r
      | (none, att2, acc2) => runProfiles pages base fs att2 acc2

/-- `main`: argument-count check (exit 2), source-existence check
(exit 1), then the profile × rule control loop over the normalized
document. -/
def mainModel (argv : List String) (srcExists : Bool) (rawLines : List String)
    (pages : Nat → List String → Nat) : RunResult :=
  if argv.length ≠ 4 then ⟨2, [usageMsg], 0, []⟩
  else if !srcExists then ⟨1, [notFoundMsg argv], 0, []⟩
  else runProfiles pages (normalizeWhitespace rawLines) fmtIndices 0 []

/-! ## The attempt schedule

The sequence of line sequences that successive render attempts use, per
profile: the base document first, then the cumulative rule reductions. -/

def ruleSchedule : List String → List TrimRule → List (List String)
  | _, [] => []
  | cur, r :: rs =>
    let nxt := normalizeWhitespace (applyTrimRule cur r)
    nxt :: ruleSchedule nxt rs

def profileSchedule (base : List String) : List (List String) :=
  base :: ruleSchedule base TRIM_RULES

/-- The full schedule across both profiles: each profile restarts from
the same base sequence. -/
def fullSchedule (base : List String) : List (List String) :=
  fmtIndices.flatMap (fun _ => profileSchedule base)

/-! ## Deletion frames

`dropMask lines flags` removes exactly the lines whose flag is `true`.
`delOnly pairs out` decides whether `out` can be obtained from the lines
of `pairs` by deleting only lines whose flag is `true` (keeping order). -/

def dropMask : List String → List Bool → List String
  | [], _ => []
  | _ :: _, [] => []
  | l :: ls, b :: bs => if b then dropMask ls bs else l :: dropMask ls bs

def delOnly : List (String × Bool) → List String → Bool
  | [], [] => true
  | [], _ :: _ => false
  | (_, d) :: rest, [] => d && delOnly rest []
  | (l, d) :: rest, o :: os =>
    (l == o && delOnly rest os) || (d && delOnly rest (o :: os))

/-! ## Drop flags of the bullet-trimming loop

`trimFlags` marks, with the code's scope rule (the target scope ends
only at the next H3), the lines that `trim_bullets_under` drops: the
bullets after the `keepK`-th inside the scope.  `claimTrimFlags` is
modelled from the spec: "a Subsection's scope runs until the next
Subsection or Section line", so a section header also ends the scope. -/

def trimFlags (title : String) (inTarget : Bool) (kept keepK : Nat) :
    List String → List Bool
  | [] => []
  | ln :: rest =>
    match h3TitleOf ln with
    | some t => false :: trimFlags title (t = title) 0 keepK rest
    | none =>
      if inTarget && isBulletLine ln then
        decide (keepK < kept + 1) :: trimFlags title inTarget (kept + 1) keepK rest
      else false :: trimFlags title inTarget kept keepK rest

/-- Modelled from the spec: the target scope of `KeepFirstKBullets` ends
at the next SubsectionHeader **or SectionHeader** line. -/
def claimTrimFlags (title : String) (inTarget : Bool) (kept keepK : Nat) :
    List String → List Bool
  | [] => []
  | ln :: rest =>
    match h3TitleOf ln with
    | some t => false :: claimTrimFlags title (t = title) 0 keepK rest
    | none =>
      if isH2 ln then false :: claimTrimFlags title false 0 keepK rest
      else if inTarget && isBulletLine ln then
        decide (keepK < kept + 1) :: claimTrimFlags title inTarget (kept + 1) keepK rest
      else false :: claimTrimFlags title inTarget kept keepK rest

/-- C4 as stated: `trim_bullets_under` deletes only bullet lines beyond
the `k`-th within the claim's scope (which ends at the next H3 or H2)
and leaves every other line unchanged. -/
def claimKeepFirstKBullets (title : String) (k : Nat) (lines : List String) : Prop :=
  delOnly (lines.zip (claimTrimFlags title false 0 k lines))
    (trimBulletsUnder lines title k) = true

/-! ## Drop flags of the project-capping loop

`projFlags` marks, with the code's counting (a single cumulative
subsection counter, never reset), the lines `keep_only_projects` drops.
`claimProjFlags` is modelled from the spec reading of C5, where "retains
exactly min(n, original count) Subsection blocks within that targeted
Section" counts per targeted section, i.e. the counter restarts at each
matching section header. -/

def projFlags (keepN : Nat) (inProj skipping : Bool) (cnt : Nat) :
    List String → List Bool
  | [] => []
  | ln :: rest =>
    if isH2 ln && isTechProjLine ln then false :: projFlags keepN true false cnt rest
    else if inProj && isH2 ln then false :: projFlags keepN false false cnt rest
    else if inProj && isH3 ln then
      if cnt + 1 ≤ keepN then false :: projFlags keepN inProj false (cnt + 1) rest
      else true :: projFlags keepN inProj true (cnt + 1) rest
    else if inProj && skipping then true :: projFlags keepN inProj skipping cnt rest
    else false :: projFlags keepN inProj skipping cnt rest

/-- Modelled from the spec: per-section subsection counting. -/
def claimProjFlags (keepN : Nat) (inProj skipping : Bool) (cnt : Nat) :
    List String → List Bool
  | [] => []
  | ln :: rest =>
    if isH2 ln && isTechProjLine ln then false :: claimProjFlags keepN true false 0 rest
    else if inProj && isH2 ln then false :: claimProjFlags keepN false false cnt rest
    else if inProj && isH3 ln then
      if cnt + 1 ≤ keepN then false :: claimProjFlags keepN inProj false (cnt + 1) rest
      else true :: claimProjFlags keepN inProj true (cnt + 1) rest
    else if inProj && skipping then true :: claimProjFlags keepN inProj skipping cnt rest
    else false :: claimProjFlags keepN inProj skipping cnt rest

/-- C5 as stated: `keep_only_projects` keeps, per targeted section, the
first `n` subsections with their bodies and drops exactly the rest. -/
def claimKeepFirstNSubsections (n : Nat) (lines : List String) : Prop :=
  keepOnlyProjects lines n = dropMask lines (claimProjFlags n false false 0 lines)

/-- The number of H3 lines inside targeted ("TECHNICAL PROJECT")
sections. -/
def targCnt (inProj : Bool) : List String → Nat
  | [] => 0
  | ln :: rest =>
    if isH2 ln && isTechProjLine ln then targCnt true rest
    else if inProj && isH2 ln then targCnt false rest
    else if inProj && isH3 ln then 1 + targCnt inProj rest
    else targCnt inProj rest

/-! ## Claim-side contact-line notions (C1, C10)

Modelled from the spec: a URL is classified LinkedIn/GitHub "by
case-insensitive substring match on its host" — the host being the part
of the token before the first `/`, after any scheme. -/

def hostOf (u : String) : List Char :=
  let c := u.data
  let c := if "https://".data.isPrefixOf c then c.drop 8
           else if "http://".data.isPrefixOf c then c.drop 7
           else c
  c.takeWhile (fun ch => ch ≠ '/')

def claimIsLinkedinHost (u : String) : Bool :=
  containsSub (lowerCh (hostOf u)) "linkedin.com".data

def claimIsGithubHost (u : String) : Bool :=
  containsSub (lowerCh (hostOf u)) "github.com".data

/-- Every contact token the extraction finds in a header block: the
first email match, the first phone match, and all URL matches. -/
def extractedTokens (hl : List String) : List (PartKind × String) :=
  ((emailTokOf hl).map (fun v => (PartKind.email, v))).toList ++
    ((phoneTokOf hl).map (fun v => (PartKind.phone, v))).toList ++
    (urlsOf hl).map (fun u => (PartKind.url, u))

/-- Modelled from the spec: the clickable link a token should become in
the consolidated line — labeled LinkedIn/GitHub by host match, else by
its literal matched text. -/
def claimLinkFor : PartKind × String → Run
  | (.email, v) => Run.link ("mailto:" ++ v) v false
  | (.phone, v) => Run.link ("tel:" ++ normalizeTel v) v false
  | (.url, v) =>
    if claimIsLinkedinHost v then Run.link (normalizeUrl v) "LinkedIn" false
    else if claimIsGithubHost v then Run.link (normalizeUrl v) "GitHub" false
    else Run.link (normalizeUrl v) v false

def isLinkRun : Run → Bool
  | .link _ _ _ => true
  | .plain _ _ => false

/-- The link runs of a paragraph, in order. -/
def linkRuns (p : Para) : List Run := p.filter isLinkRun

/-- C1 as stated, at one header block: when any contact token was found,
the flush emits (at most a location line and) one consolidated line in
which every extracted token appears as its clickable link. -/
def claimConsolidatedAll (hl : List String) : Prop :=
  extractedTokens hl ≠ [] →
    ((flushHeaderBlock hl).length = 1 ∨ (flushHeaderBlock hl).length = 2) ∧
    ∀ t ∈ extractedTokens hl, claimLinkFor t ∈ (flushHeaderBlock hl).getLastD []

/-- C10 as stated: the consolidated line's links, in the fixed order
email, phone, LinkedIn, GitHub, using the first match of each — with
LinkedIn/GitHub identified by **host** match. -/
def claimC10Links (hl : List String) : List Run :=
  ((emailTokOf hl).map (fun v => Run.link ("mailto:" ++ v) v false)).toList ++
    ((phoneTokOf hl).map (fun v => Run.link ("tel:" ++ normalizeTel v) v false)).toList ++
    (((urlsOf hl).find? claimIsLinkedinHost).map
      (fun v => Run.link (normalizeUrl v) "LinkedIn" false)).toList ++
    (((urlsOf hl).find? claimIsGithubHost).map
      (fun v => Run.link (normalizeUrl v) "GitHub" false)).toList

def claimFixedOrderContacts (hl : List String) : Prop :=
  claimC10Links hl ≠ [] →
    ((flushHeaderBlock hl).length = 1 ∨ (flushHeaderBlock hl).length = 2) ∧
    linkRuns ((flushHeaderBlock hl).getLastD []) = claimC10Links hl

/-- The first URL containing `github.com` among those left after
removing the chosen LinkedIn URL (used to characterize the code's
GitHub choice). -/
def removeFirstLinkedin : List String → List String
  | [] => []
  | u :: rest => if hasLinkedinSub u then rest else u :: removeFirstLinkedin rest

/-- Each entry of the list is at most as long as its predecessor. -/
def nonGrowing : List (List String) → Bool
  | [] => true
  | [_] => true
  | a :: b :: t => decide (b.length ≤ a.length) && nonGrowing (b :: t)

/-- C2 as stated, for one run: successive render attempts never use a
longer line sequence than their predecessor. -/
def claimMonotoneAttempts (argv : List String) (srcExists : Bool)
    (rawLines : List String) (pages : Nat → List String → Nat) : Prop :=
  nonGrowing ((mainModel argv srcExists rawLines pages).attemptLines) = true

/-! ## Helper lemmas -/

theorem dropWhile_idem (p : α → Bool) (l : List α) :
    (l.dropWhile p).dropWhile p = l.dropWhile p := by
  induction l with
  | nil => rfl
  | cons a t ih =>
    by_cases h : p a = true
    · simpa [List.dropWhile, h] using ih
    · simp [List.dropWhile, h]

theorem dropWhile_head_false (p : α → Bool) (l : List α) (a : α) (t : List α)
    (h : l.dropWhile p = a :: t) : p a = false := by
  induction l with
  | nil => simp [List.dropWhile] at h
  | cons x xs ih =>
    by_cases hx : p x = true
    · rw [List.dropWhile_cons_of_pos hx] at h
      exact ih h
    · rw [List.dropWhile_cons_of_neg hx] at h
      cases h
      simpa using hx

theorem takeWhile_dropWhile_nil (p : α → Bool) (l : List α) :
    (l.dropWhile p).takeWhile p = [] := by
  rcases h : l.dropWhile p with _ | ⟨a, t⟩
  · rfl
  · have := dropWhile_head_false p l a t h
    simp [List.takeWhile, this]

theorem rstripCh_idem (l : List Char) : rstripCh (rstripCh l) = rstripCh l := by
  unfold rstripCh
  rw [List.reverse_reverse, dropWhile_idem]

theorem dropTrail2_rstripCh (l : List Char) :
    dropTrail2 (rstripCh l) = rstripCh l := by
  unfold dropTrail2
  have h : ((rstripCh l).reverse.takeWhile isWsChar).length = 0 := by
    unfold rstripCh
    rw [List.reverse_reverse, takeWhile_dropWhile_nil]
    rfl
  rw [h]
  simp

theorem cleanLine_eq_rstrip (s : String) :
    cleanLine s = String.mk (rstripCh s.data) := by
  unfold cleanLine
  rw [dropTrail2_rstripCh]

theorem cleanLine_idem (s : String) : cleanLine (cleanLine s) = cleanLine s := by
  rw [cleanLine_eq_rstrip s, cleanLine_eq_rstrip]
  show String.mk (rstripCh (rstripCh s.data)) = String.mk (rstripCh s.data)
  rw [rstripCh_idem]

theorem blank_cleanLine_eq_empty (s : String)
    (h : isBlankLine (cleanLine s) = true) : cleanLine s = "" := by
  rw [cleanLine_eq_rstrip] at h ⊢
  unfold isBlankLine at h
  rcases hd : (s.data.reverse.dropWhile isWsChar) with _ | ⟨a, t⟩
  · unfold rstripCh
    rw [hd]
    rfl
  · exfalso
    have hfalse := dropWhile_head_false isWsChar s.data.reverse a t hd
    have hmem : a ∈ rstripCh s.data := by
      unfold rstripCh
      rw [hd]
      simp
    have := List.all_eq_true.mp h a hmem
    rw [hfalse] at this
    cases this

/-! ## Claim theorems -/

/-- **C8.** The whitespace-normalization pass (strip trailing
whitespace, remove horizontal-rule lines, collapse consecutive blank
lines to at most one) is idempotent: applying it twice yields exactly
the list produced by applying it once. -/
theorem normalizeWhitespace_idempotent (lines : List String) :
    normalizeWhitespace (normalizeWhitespace lines) = normalizeWhitespace lines := by
  suffices h : ∀ (ls : List String) (b c : Nat), (b = 0 ↔ c = 0) →
      normGo c (normGo b ls) = normGo b ls from h lines 0 0 Iff.rfl
  intro ls
  induction ls with
  | nil => intro b c _; rfl
  | cons ln rest ih =>
    intro b c h
    rw [normGo]
    rcases hHR : isHR (cleanLine ln) with _ | _
    · rcases hB : isBlankLine (cleanLine ln) with _ | _
      · -- a regular content line: it is kept, cleaned, and stays
        -- non-blank and non-HR on the second pass
        simp only [Bool.false_eq_true, if_false]
        rw [normGo, cleanLine_idem, hHR, hB]
        simp only [Bool.false_eq_true, if_false]
        rw [ih 0 0 Iff.rfl]
      · -- a blank line
        simp only [Bool.false_eq_true, if_false, if_true]
        by_cases hb : b = 0
        · have hc : c = 0 := h.mp hb
          rw [if_pos hb, normGo]
          have h2 : isHR (cleanLine "") = false := rfl
          have h3 : isBlankLine (cleanLine "") = true := rfl
          rw [h2, h3]
          simp only [Bool.false_eq_true, if_false, if_true]
          rw [if_pos hc, ih (b + 1) (c + 1) (by omega)]
        · rw [if_neg hb, ih (b + 1) c (by omega)]
    · simp only [if_true]
      exact ih b c h

/-- **C9.** For the phone text `(402) 555-0199` the renderer produces a
single linked run whose target is `tel:+14025550199` (ten US digits
normalized to eleven with the country code and a `+` prefix) and whose
display text is the original matched text, unchanged. -/
theorem phone_normalization_c9 :
    normalizeTel "(402) 555-0199" = "+14025550199" ∧
    addRunsWithBold "(402) 555-0199" false =
      [Run.link "tel:+14025550199" "(402) 555-0199" false] := by
  constructor
  · rfl
  · decide

/-! ## C4: frame lemmas for `trim_bullets_under` -/

theorem trimFlags_length (title : String) (k : Nat) :
    ∀ (ls : List String) (inT : Bool) (kept : Nat),
      (trimFlags title inT kept k ls).length = ls.length := by
  intro ls
  induction ls with
  | nil => intros; rfl
  | cons ln rest ih =>
    intro inT kept
    simp only [trimFlags]
    cases h3TitleOf ln with
    | some t => simp [ih]
    | none =>
      by_cases hb : (inT && isBulletLine ln) = true
      · simp [hb, ih]
      · simp [hb, ih]

theorem trimGo_eq_dropMask (title : String) (k : Nat) :
    ∀ (ls : List String) (inT : Bool) (kept : Nat),
      trimGo title inT kept k ls = dropMask ls (trimFlags title inT kept k ls) := by
  intro ls
  induction ls with
  | nil => intros; rfl
  | cons ln rest ih =>
    intro inT kept
    simp only [trimGo, trimFlags]
    cases h3TitleOf ln with
    | some t => simp [dropMask, ih]
    | none =>
      by_cases hb : (inT && isBulletLine ln) = true
      · by_cases hk : kept + 1 ≤ k
        · have : decide (k < kept + 1) = false := by simp; omega
          simp [hb, hk, this, dropMask, ih]
        · have : decide (k < kept + 1) = true := by simp; omega
          simp [hb, hk, this, dropMask, ih]
      · simp [hb, dropMask, ih]

theorem delOnly_dropMask :
    ∀ (ls : List String) (bs : List Bool), bs.length = ls.length →
      delOnly (ls.zip bs) (dropMask ls bs) = true := by
  intro ls
  induction ls with
  | nil =>
    intro bs h
    cases bs with
    | nil => rfl
    | cons b bs => simp at h
  | cons l ls ih =>
    intro bs h
    cases bs with
    | nil => simp at h
    | cons b bs =>
      have hlen : bs.length = ls.length := by simpa using h
      cases b
      · simp [dropMask, delOnly]
        try exact ih bs hlen
      · simp only [dropMask, if_true, List.zip_cons_cons]
        cases hd : dropMask ls bs with
        | nil =>
          have := ih bs hlen
          rw [hd] at this
          simp [delOnly, this]
        | cons o os =>
          have := ih bs hlen
          rw [hd] at this
          simp [delOnly, this]

theorem trimFlags_bullet (title : String) (k : Nat) :
    ∀ (ls : List String) (inT : Bool) (kept : Nat) (i : Nat),
      (trimFlags title inT kept k ls).get? i = some true →
      ∃ l, ls.get? i = some l ∧ isBulletLine l = true := by
  intro ls
  induction ls with
  | nil => intro inT kept i h; simp [trimFlags] at h
  | cons ln rest ih =>
    intro inT kept i h
    simp only [trimFlags] at h
    cases h3 : h3TitleOf ln with
    | some t =>
      rw [h3] at h
      cases i with
      | zero => simp at h
      | succ j =>
        obtain ⟨l, hl, hb⟩ := ih _ _ j (by simpa using h)
        exact ⟨l, by simpa using hl, hb⟩
    | none =>
      rw [h3] at h
      by_cases hb : (inT && isBulletLine ln) = true
      · rw [if_pos hb] at h
        cases i with
        | zero =>
          refine ⟨ln, rfl, ?_⟩
          exact Bool.and_elim_right hb
        | succ j =>
          obtain ⟨l, hl, hbl⟩ := ih _ _ j (by simpa using h)
          exact ⟨l, by simpa using hl, hbl⟩
      · rw [if_neg hb] at h
        cases i with
        | zero => simp at h
        | succ j =>
          obtain ⟨l, hl, hbl⟩ := ih _ _ j (by simpa using h)
          exact ⟨l, by simpa using hl, hbl⟩

/-- **C4 (counterexample).** The claim fails as stated: the scope of
`KeepFirstKBullets` does **not** end at the next SectionHeader.  With
title `T` and `k = 0`, on `["### T", "## S", "- b"]` the bullet after
the section header `## S` is outside the claim's scope, so the claim
requires it kept; the code drops it. -/
theorem keepFirstKBullets_scope_cx :
    ¬ claimKeepFirstKBullets "T" 0 ["### T", "## S", "- b"] := by
  unfold claimKeepFirstKBullets
  decide

/-- **C4 (amended).** With the scope ending only at the next
SubsectionHeader (section headers do not end it), `KeepFirstKBullets`
drops only Bullet lines after the `k`-th within that scope — every
dropped line is a flagged bullet, and the output is the input minus
exactly the flagged lines, so bullet counts never increase and
non-bullet lines and out-of-scope lines are unchanged. -/
theorem keepFirstKBullets_frame (title : String) (k : Nat) (lines : List String) :
    delOnly (lines.zip (trimFlags title false 0 k lines))
        (trimBulletsUnder lines title k) = true ∧
    trimBulletsUnder lines title k = dropMask lines (trimFlags title false 0 k lines) ∧
    ∀ i, (trimFlags title false 0 k lines).get? i = some true →
      ∃ l, lines.get? i = some l ∧ isBulletLine l = true := by
  refine ⟨?_, ?_, ?_⟩
  · rw [trimBulletsUnder, trimGo_eq_dropMask]
    exact delOnly_dropMask lines _ (trimFlags_length title k lines false 0)
  · exact trimGo_eq_dropMask title k lines false 0
  · exact trimFlags_bullet title k lines false 0

theorem keepFirstKBullets_frame_witness :
    delOnly ((["### X", "- a"]).zip (trimFlags "X" false 0 0 ["### X", "- a"]))
        (trimBulletsUnder ["### X", "- a"] "X" 0) = true ∧
    (∃ l, (["### X", "- a"] : List String).get? 1 = some l ∧ isBulletLine l = true) :=
  ⟨(keepFirstKBullets_frame "X" 0 ["### X", "- a"]).1,
   (keepFirstKBullets_frame "X" 0 ["### X", "- a"]).2.2 1 (by decide)⟩

/-! ## C5: lemmas for `keep_only_projects` -/

theorem keepGo_eq_dropMask (n : Nat) :
    ∀ (ls : List String) (inP skip : Bool) (cnt : Nat),
      keepGo n inP skip cnt ls = dropMask ls (projFlags n inP skip cnt ls) := by
  intro ls
  induction ls with
  | nil => intros; rfl
  | cons ln rest ih =>
    intro inP skip cnt
    simp only [keepGo, projFlags]
    by_cases h1 : (isH2 ln && isTechProjLine ln) = true
    · simp [h1, dropMask, ih]
    · by_cases h2 : (inP && isH2 ln) = true
      · simp [h1, h2, dropMask, ih]
      · by_cases h3 : (inP && isH3 ln) = true
        · by_cases hc : cnt + 1 ≤ n
          · simp [h1, h2, h3, hc, dropMask, ih]
          · simp [h1, h2, h3, hc, dropMask, ih]
        · by_cases h4 : (inP && skip) = true
          · simp [h1, h2, h3, h4, dropMask, ih]
          · simp [h1, h2, h3, h4, dropMask, ih]

theorem targCnt_keepGo (n : Nat) :
    ∀ (ls : List String) (inP skip : Bool) (cnt : Nat),
      targCnt inP (keepGo n inP skip cnt ls) =
        min n (cnt + targCnt inP ls) - min n cnt := by
  intro ls
  induction ls with
  | nil =>
    intro inP skip cnt
    simp only [keepGo, targCnt]
    omega
  | cons ln rest ih =>
    intro inP skip cnt
    by_cases h1 : (isH2 ln && isTechProjLine ln) = true
    · have hH2 : isH2 ln = true := Bool.and_elim_left h1
      have hT : isTechProjLine ln = true := Bool.and_elim_right h1
      simp [keepGo, targCnt, hH2, hT, ih]
    · by_cases h2 : (inP && isH2 ln) = true
      · have hinP : inP = true := Bool.and_elim_left h2
        have hH2 : isH2 ln = true := Bool.and_elim_right h2
        have hT : isTechProjLine ln = false := by
          rw [hH2] at h1
          simpa using h1
        simp [keepGo, targCnt, hinP, hH2, hT, ih]
      · by_cases h3 : (inP && isH3 ln) = true
        · have hinP : inP = true := Bool.and_elim_left h3
          have hH3 : isH3 ln = true := Bool.and_elim_right h3
          have hH2f : isH2 ln = false := by
            rw [hinP] at h2
            simpa using h2
          by_cases hc : cnt + 1 ≤ n
          · simp [keepGo, targCnt, hinP, hH3, hH2f, hc, ih]
            omega
          · simp [keepGo, targCnt, hinP, hH3, hH2f, hc, ih]
            omega
        · by_cases h4 : (inP && skip) = true
          · have hinP : inP = true := Bool.and_elim_left h4
            have hSk : skip = true := Bool.and_elim_right h4
            have hH2f : isH2 ln = false := by
              rw [hinP] at h2
              simpa using h2
            have hH3f : isH3 ln = false := by
              rw [hinP] at h3
              simpa using h3
            simp [keepGo, targCnt, hinP, hSk, hH2f, hH3f, ih]
          · cases hinP : inP with
            | false =>
              simp [keepGo, targCnt, hinP, h1, ih]
            | true =>
              have hH2f : isH2 ln = false := by
                rw [hinP] at h2
                simpa using h2
              have hH3f : isH3 ln = false := by
                rw [hinP] at h3
                simpa using h3
              have hSkf : skip = false := by
                rw [hinP] at h4
                simpa using h4
              simp [keepGo, targCnt, hinP, hH2f, hH3f, hSkf, ih]

/-- **C5 (counterexample).** The claim fails as stated: the subsection
counter of `KeepFirstNSubsections` is cumulative across every matching
"TECHNICAL PROJECT" section, never per-section.  With `n = 1` and two
matching sections of one subsection each, the claim requires both kept
(each section retains `min(1, 1) = 1`); the code drops the second. -/
theorem keepFirstNSubsections_cx :
    ¬ claimKeepFirstNSubsections 1
      ["## TECHNICAL PROJECTS", "### A", "## TECHNICAL PROJECTS", "### B"] := by
  unfold claimKeepFirstNSubsections
  decide

/-- **C5 (amended).** With the subsection count accumulated across all
matching sections (so when exactly one section matches, exactly its
first `n` subsections): `KeepFirstNSubsections(n)` drops exactly the
flagged lines — the subsections beyond the `n`-th counted cumulatively
inside targeted sections, with their bodies — keeping everything else in
order, and the retained targeted-subsection count is
`min(n, original count)`. -/
theorem keepFirstNSubsections_amended (n : Nat) (lines : List String) :
    keepOnlyProjects lines n = dropMask lines (projFlags n false false 0 lines) ∧
    targCnt false (keepOnlyProjects lines n) = min n (targCnt false lines) := by
  constructor
  · exact keepGo_eq_dropMask n lines false false 0
  · have := targCnt_keepGo n lines false false 0
    rw [keepOnlyProjects]
    rw [this]
    omega

/-- **C6.** Same-start tie-break in the inline span renderer: when the
email and phone searches (resp. email and URL, phone and URL) match at
the same position, the earlier-ranked class wins — email beats phone
beats URL; and on `reach me at a@b.com or see example.com` the renderer
emits exactly one email-linked run (`a@b.com`) and then exactly one
URL-linked run (`example.com`), in that left-to-right order. -/
theorem inline_tiebreak_c6 :
    (∀ (seg : List Char) (i s e1 e2 : Nat),
      searchEmail seg i = some (s, e1) → searchPhone seg i = some (s, e2) →
      (∀ u e, searchUrl seg i = some (u, e) → s ≤ u) →
      chooseNext (searchEmail seg i) (searchPhone seg i) (searchUrl seg i) =
        some (TokKind.email, s, e1)) ∧
    (∀ (seg : List Char) (i s e1 e3 : Nat),
      searchEmail seg i = some (s, e1) → searchUrl seg i = some (s, e3) →
      (∀ u e, searchPhone seg i = some (u, e) → s ≤ u) →
      chooseNext (searchEmail seg i) (searchPhone seg i) (searchUrl seg i) =
        some (TokKind.email, s, e1)) ∧
    (∀ (seg : List Char) (i s e2 e3 : Nat),
      searchPhone seg i = some (s, e2) → searchUrl seg i = some (s, e3) →
      (∀ u e, searchEmail seg i = some (u, e) → s < u) →
      chooseNext (searchEmail seg i) (searchPhone seg i) (searchUrl seg i) =
        some (TokKind.phone, s, e2)) ∧
    addRunsWithBold "reach me at a@b.com or see example.com" false =
      [Run.plain "reach me at " false, Run.link "mailto:a@b.com" "a@b.com" false,
       Run.plain " or see " false,
       Run.link "https://example.com" "example.com" false] := by
  refine ⟨?_, ?_, ?_, ?_⟩
  · intro seg i s e1 e2 hE hP hU
    rw [hE, hP]
    cases hu : searchUrl seg i with
    | none => simp [chooseNext, betterCand, rankOf]
    | some p =>
      obtain ⟨u, eu⟩ := p
      have hs := hU u eu hu
      simp only [chooseNext, betterCand, rankOf, Option.toList, Option.map_some,
        List.foldl]
      simp [Nat.lt_irrefl, Nat.not_lt.mpr hs]
  · intro seg i s e1 e3 hE hU hP
    rw [hE, hU]
    cases hp : searchPhone seg i with
    | none => simp [chooseNext, betterCand, rankOf]
    | some p =>
      obtain ⟨u, eu⟩ := p
      have hs := hP u eu hp
      simp only [chooseNext, betterCand, rankOf, Option.toList, Option.map_some,
        List.foldl]
      simp [Nat.lt_irrefl, Nat.not_lt.mpr hs]
  · intro seg i s e2 e3 hP hU hE
    rw [hP, hU]
    cases he : searchEmail seg i with
    | none => simp [chooseNext, betterCand, rankOf]
    | some p =>
      obtain ⟨u, eu⟩ := p
      have hs := hE u eu he
      simp only [chooseNext, betterCand, rankOf, Option.toList, Option.map_some,
        List.foldl]
      simp [Nat.lt_irrefl, hs, Nat.not_lt.mpr (Nat.le_of_lt hs), Nat.lt_asymm hs]
  · decide

theorem inline_tiebreak_c6_witness :
    chooseNext (searchEmail "402.555.0199.ab@cd.com".data 0)
        (searchPhone "402.555.0199.ab@cd.com".data 0)
        (searchUrl "402.555.0199.ab@cd.com".data 0) =
      some (TokKind.email, 0, 22) :=
  inline_tiebreak_c6.1 "402.555.0199.ab@cd.com".data 0 0 22 12 (by decide) (by decide)
    (fun u _ _ => Nat.zero_le u)

/-! ## C1/C10: lemmas on the consolidated contact line -/

theorem getLastD_append_singleton (xs : List α) (a b : α) :
    (xs ++ [a]).getLastD b = a := by
  induction xs with
  | nil => rfl
  | cons x t ih =>
    cases t with
    | nil => rfl
    | cons y u => simpa using ih

theorem isLinkRun_linkForPart (li gh : Option String) (p : PartKind × String) :
    isLinkRun (linkForPart li gh p) = true := by
  obtain ⟨k, v⟩ := p
  cases k with
  | email => rfl
  | phone => rfl
  | url =>
    simp only [linkForPart]
    by_cases h1 : claimIsLinkedinHost v = true
    · simp [h1, isLinkRun]
    · by_cases h2 : claimIsGithubHost v = true
      · simp [h1, h2, isLinkRun]
      · simp [h1, h2, isLinkRun]

theorem linkRuns_consolPara (li gh : Option String) :
    ∀ parts, linkRuns (consolPara li gh parts) = parts.map (linkForPart li gh) := by
  have hflat : ∀ (ps : List (PartKind × String)),
      (ps.flatMap (fun q => [sepRun, linkForPart li gh q])).filter isLinkRun =
        ps.map (linkForPart li gh) := by
    intro ps
    induction ps with
    | nil => rfl
    | cons q rest ih =>
      simp only [List.flatMap_cons, List.filter_append, List.map_cons]
      rw [show ([sepRun, linkForPart li gh q].filter isLinkRun) =
          [linkForPart li gh q] from ?_]
      · simpa using ih
      · simp [List.filter, isLinkRun_linkForPart li gh q,
          show isLinkRun sepRun = false from rfl]
  intro parts
  cases parts with
  | nil => rfl
  | cons p ps =>
    simp only [consolPara, linkRuns, List.filter_cons,
      isLinkRun_linkForPart li gh p, if_true, List.map_cons]
    rw [show (List.filter isLinkRun (ps.flatMap (fun q => [sepRun, linkForPart li gh q]))) =
        ps.map (linkForPart li gh) from hflat ps]

theorem intercalate_cons2 (sep a b : List α) (t : List (List α)) :
    List.intercalate sep (a :: b :: t) = a ++ sep ++ List.intercalate sep (b :: t) := by
  simp [List.intercalate, List.intersperse]

theorem consolPara_intercalate (li gh : Option String) :
    ∀ parts, consolPara li gh parts =
      List.intercalate [sepRun] (parts.map (fun p => [linkForPart li gh p])) := by
  intro parts
  induction parts with
  | nil => rfl
  | cons p ps ih =>
    cases ps with
    | nil => rfl
    | cons q rest =>
      rw [List.map_cons, List.map_cons, intercalate_cons2]
      have ih2 : consolPara li gh (q :: rest) =
          [sepRun].intercalate
            ([linkForPart li gh q] :: List.map (fun p => [linkForPart li gh p]) rest) := by
        simpa using ih
      rw [← ih2]
      simp [consolPara]

theorem classifyGo_li_some (x : String) :
    ∀ (urls : List String) (gh : Option String) (acc : List String),
      (classifyGo (some x) gh acc urls).1 = some x := by
  intro urls
  induction urls with
  | nil => intros; rfl
  | cons u rest ih =>
    intro gh acc
    simp only [classifyGo, Option.isNone_some, Bool.and_false, Bool.false_eq_true,
      if_false]
    by_cases h2 : (hasGithubSub u && gh.isNone) = true
    · rw [if_pos h2]
      exact ih _ _
    · rw [if_neg h2]
      exact ih _ _

theorem classifyGo_li_none :
    ∀ (urls : List String) (gh : Option String) (acc : List String),
      (classifyGo none gh acc urls).1 = urls.find? hasLinkedinSub := by
  intro urls
  induction urls with
  | nil => intros; rfl
  | cons u rest ih =>
    intro gh acc
    by_cases h1 : hasLinkedinSub u = true
    · simp only [classifyGo, h1, Option.isNone_none, Bool.and_true, if_true,
        List.find?_cons_of_pos _ h1]
      exact classifyGo_li_some u rest gh acc
    · simp only [classifyGo, h1, Bool.false_and, Bool.false_eq_true, if_false,
        List.find?_cons_of_neg _ h1]
      by_cases h2 : (hasGithubSub u && gh.isNone) = true
      · rw [if_pos h2]
        exact ih _ _
      · rw [if_neg h2]
        exact ih _ _

theorem classifyGo_gh_some (x : String) :
    ∀ (urls : List String) (li : Option String) (acc : List String),
      (classifyGo li (some x) acc urls).2.1 = some x := by
  intro urls
  induction urls with
  | nil => intros; rfl
  | cons u rest ih =>
    intro li acc
    simp only [classifyGo, Option.isNone_some, Bool.and_false, Bool.false_eq_true,
      if_false]
    by_cases h1 : (hasLinkedinSub u && li.isNone) = true
    · rw [if_pos h1]
      exact ih _ _
    · rw [if_neg h1]
      exact ih _ _

theorem classifyGo_gh_li_set (x : String) :
    ∀ (urls : List String) (acc : List String),
      (classifyGo (some x) none acc urls).2.1 = urls.find? hasGithubSub := by
  intro urls
  induction urls with
  | nil => intros; rfl
  | cons u rest ih =>
    intro acc
    simp only [classifyGo, Option.isNone_some, Bool.and_false, Bool.false_eq_true,
      if_false]
    by_cases h2 : hasGithubSub u = true
    · simp only [h2, Option.isNone_none, Bool.and_true, if_true,
        List.find?_cons_of_pos _ h2]
      exact classifyGo_gh_some u rest (some x) acc
    · simp only [h2, Bool.false_and, Bool.false_eq_true, if_false,
        List.find?_cons_of_neg _ h2]
      exact ih _

theorem classifyGo_gh_none :
    ∀ (urls : List String) (acc : List String),
      (classifyGo none none acc urls).2.1 =
        (removeFirstLinkedin urls).find? hasGithubSub := by
  intro urls
  induction urls with
  | nil => intros; rfl
  | cons u rest ih =>
    intro acc
    by_cases h1 : hasLinkedinSub u = true
    · simp only [classifyGo, h1, Option.isNone_none, Bool.and_true, if_true,
        removeFirstLinkedin, if_pos h1]
      exact classifyGo_gh_li_set u rest acc
    · simp only [classifyGo, h1, Bool.false_and, Bool.false_eq_true, if_false,
        removeFirstLinkedin, if_neg h1]
      by_cases h2 : hasGithubSub u = true
      · simp only [h2, Option.isNone_none, Bool.and_true, if_true,
          List.find?_cons_of_pos _ h2]
        exact classifyGo_gh_some u rest none acc
      · simp only [h2, Bool.false_and, Bool.false_eq_true, if_false,
          List.find?_cons_of_neg _ h2]
        exact ih _

/-- **C1 (counterexample).** The claim fails as stated: URL tokens that
are neither LinkedIn nor GitHub never reach the consolidated line.  On
the header block `["Omaha, NE", "a@b.com example.org"]` the extraction
finds the URL token `example.org`, but the emitted consolidated line
contains only the email link — `example.org` appears in no link. -/
theorem header_flush_cx :
    ¬ claimConsolidatedAll ["Omaha, NE", "a@b.com example.org"] := by
  unfold claimConsolidatedAll
  decide

/-- **C1 (amended).** When any of email / phone / LinkedIn / GitHub is
extracted (`partsOf hl ≠ []`), the flush emits the location paragraph
(if a nonempty token-free line exists) followed by exactly one
consolidated paragraph: the links of those parts only — other URL
tokens are omitted — joined by the literal `" | "` separator, each
labeled `LinkedIn`/`GitHub` for the classified URLs and by its literal
matched text for email and phone (the labels are fixed by
`linkForPart`).  When none of the four is found, the header-block lines
are each rendered through the span renderer instead, still preceded by
the location paragraph when one exists. -/
theorem header_flush_amended :
    (∀ hl : List String, partsOf hl ≠ [] →
      flushHeaderBlock hl = locParasOf hl ++ [consolParaOf hl] ∧
      consolParaOf hl = List.intercalate [sepRun]
        ((partsOf hl).map (fun p => [linkForPart (linkedinOf hl) (githubOf hl) p])) ∧
      linkRuns (consolParaOf hl) =
        (partsOf hl).map (linkForPart (linkedinOf hl) (githubOf hl))) ∧
    (∀ hl : List String, hl ≠ [] → partsOf hl = [] →
      flushHeaderBlock hl =
        locParasOf hl ++ hl.map (fun l => addRunsWithBold (stripStr l) false)) := by
  constructor
  · intro hl h
    have hne : hl ≠ [] := by
      intro he
      subst he
      exact h (by decide)
    refine ⟨?_, consolPara_intercalate _ _ _, linkRuns_consolPara _ _ _⟩
    rw [flushHeaderBlock, if_neg hne, if_neg h]
  · intro hl hne h
    rw [flushHeaderBlock, if_neg hne, if_pos h]

theorem header_flush_amended_witness :
    flushHeaderBlock ["Omaha, NE", "a@b.com"] =
      locParasOf ["Omaha, NE", "a@b.com"] ++ [consolParaOf ["Omaha, NE", "a@b.com"]] ∧
    linkRuns (consolParaOf ["Omaha, NE", "a@b.com"]) =
      (partsOf ["Omaha, NE", "a@b.com"]).map
        (linkForPart (linkedinOf ["Omaha, NE", "a@b.com"])
          (githubOf ["Omaha, NE", "a@b.com"])) :=
  ⟨(header_flush_amended.1 ["Omaha, NE", "a@b.com"] (by decide)).1,
   (header_flush_amended.1 ["Omaha, NE", "a@b.com"] (by decide)).2.2⟩

/-- **C10 (counterexample).** The claim fails as stated: the code
classifies a URL by substring containment anywhere in the token, not on
its host.  In `["user@mail.com example.com/github.com"]` the URL token
`example.com/github.com` has host `example.com` — not a GitHub host — so
the claim allows only the email link; the code emits a `GitHub` link for
it as well. -/
theorem fixed_order_contacts_cx :
    ¬ claimFixedOrderContacts ["user@mail.com example.com/github.com"] := by
  unfold claimFixedOrderContacts
  decide

/-- **C10 (amended).** The consolidated line's links are, in the fixed
order email, phone, LinkedIn, GitHub regardless of source order (the
`partsOf` list), using only the first email and first phone match of the
joined text; the LinkedIn URL is the first URL containing `linkedin.com`
(lowercased, anywhere in the token), and the GitHub URL is the first URL
containing `github.com` among the URLs left after removing the chosen
LinkedIn URL. -/
theorem fixed_order_contacts_amended (hl : List String) (h : partsOf hl ≠ []) :
    linkRuns ((flushHeaderBlock hl).getLastD []) =
      (partsOf hl).map (linkForPart (linkedinOf hl) (githubOf hl)) ∧
    linkedinOf hl = (urlsOf hl).find? hasLinkedinSub ∧
    githubOf hl = (removeFirstLinkedin (urlsOf hl)).find? hasGithubSub := by
  have hne : hl ≠ [] := by
    intro he
    subst he
    exact h (by decide)
  refine ⟨?_, classifyGo_li_none _ _ _, classifyGo_gh_none _ _⟩
  rw [flushHeaderBlock, if_neg hne, if_neg h, getLastD_append_singleton]
  exact linkRuns_consolPara _ _ _

theorem fixed_order_contacts_witness :
    linkRuns ((flushHeaderBlock ["a@b.com github.com/a github.com/b"]).getLastD []) =
      (partsOf ["a@b.com github.com/a github.com/b"]).map
        (linkForPart (linkedinOf ["a@b.com github.com/a github.com/b"])
          (githubOf ["a@b.com github.com/a github.com/b"])) ∧
    githubOf ["a@b.com github.com/a github.com/b"] =
      (removeFirstLinkedin (urlsOf ["a@b.com github.com/a github.com/b"])).find?
        hasGithubSub :=
  ⟨(fixed_order_contacts_amended ["a@b.com github.com/a github.com/b"] (by decide)).1,
   (fixed_order_contacts_amended ["a@b.com github.com/a github.com/b"] (by decide)).2.2⟩

/-! ## C2/C3/C7: lemmas on the control loop -/

theorem dropMask_length_le : ∀ (ls : List String) (bs : List Bool),
    (dropMask ls bs).length ≤ ls.length := by
  intro ls
  induction ls with
  | nil => intro bs; cases bs <;> simp [dropMask]
  | cons l t ih =>
    intro bs
    cases bs with
    | nil => simp [dropMask]
    | cons b bt =>
      cases b
      · simpa [dropMask] using ih bt
      · simp only [dropMask, if_true]
        have := ih bt
        simp
        omega

theorem dropWhileLines_length_le (p : String → Bool) (l : List String) :
    (l.dropWhile p).length ≤ l.length := by
  induction l with
  | nil => simp [List.dropWhile]
  | cons a t ih =>
    simp only [List.dropWhile]
    split
    · simp
      omega
    · simp

theorem dropSectionGo_length_le (t : String) :
    ∀ (fuel : Nat) (ls : List String),
      (dropSectionGo t fuel ls).length ≤ ls.length := by
  intro fuel
  induction fuel with
  | zero => intro ls; cases ls <;> simp [dropSectionGo]
  | succ f ih =>
    intro ls
    cases ls with
    | nil => simp [dropSectionGo]
    | cons ln rest =>
      simp only [dropSectionGo]
      split
      · calc (dropSectionGo t f (rest.dropWhile fun l => !(isH3 l) && !(isH2 l))).length
            ≤ (rest.dropWhile fun l => !(isH3 l) && !(isH2 l)).length := ih _
          _ ≤ rest.length := dropWhileLines_length_le _ _
          _ ≤ (ln :: rest).length := by simp
      · have := ih rest
        simp
        omega

theorem applyTrimRule_length_le (lines : List String) (r : TrimRule) :
    (applyTrimRule lines r).length ≤ lines.length := by
  cases r with
  | dropSec t => exact dropSectionGo_length_le t lines.length lines
  | keepProjects n =>
    rw [applyTrimRule, keepOnlyProjects, keepGo_eq_dropMask]
    exact dropMask_length_le _ _
  | trimBullets t k =>
    rw [applyTrimRule, trimBulletsUnder, trimGo_eq_dropMask]
    exact dropMask_length_le _ _

theorem normGo_length_le : ∀ (ls : List String) (b : Nat),
    (normGo b ls).length ≤ ls.length := by
  intro ls
  induction ls with
  | nil => intro b; simp [normGo]
  | cons ln rest ih =>
    intro b
    simp only [normGo]
    split
    · have := ih b
      simp
      omega
    · split
      · split
        · have := ih (b + 1)
          simp
          omega
        · have := ih (b + 1)
          simp
          omega
      · have := ih 0
        simp
        omega

theorem step_length_le (cur : List String) (r : TrimRule) :
    (normalizeWhitespace (applyTrimRule cur r)).length ≤ cur.length :=
  Nat.le_trans (normGo_length_le _ 0) (applyTrimRule_length_le cur r)

theorem ruleSchedule_nonGrowing : ∀ (rules : List TrimRule) (cur : List String),
    nonGrowing (cur :: ruleSchedule cur rules) = true := by
  intro rules
  induction rules with
  | nil => intro cur; rfl
  | cons r rs ih =>
    intro cur
    rw [ruleSchedule, nonGrowing]
    simp only [Bool.and_eq_true, decide_eq_true_eq]
    exact ⟨step_length_le cur r, ih _⟩

theorem ruleSchedule_length : ∀ (rules : List TrimRule) (cur : List String),
    (ruleSchedule cur rules).length = rules.length := by
  intro rules
  induction rules with
  | nil => intro cur; rfl
  | cons r rs ih => intro cur; simp [ruleSchedule, ih]

theorem tryRules_some (pages : Nat → List String → Nat) (f : Nat) :
    ∀ (rules : List TrimRule) (cur : List String) (att : Nat)
      (acc : List (List String)) (r : RunResult) (att2 : Nat)
      (acc2 : List (List String)),
      tryRules pages f cur rules att acc = (some r, att2, acc2) →
      r.exitCode = 0 ∧ r.attemptLines = acc2 ∧
      (∃ rule, rule ∈ rules ∧ r.printed = [okTrimMsg rule r.attempts]) ∧
      ∃ k, k ≤ rules.length ∧ acc2 = acc ++ (ruleSchedule cur rules).take k := by
  intro rules
  induction rules with
  | nil =>
    intro cur att acc r att2 acc2 heq
    simp [tryRules] at heq
  | cons rl rs ih =>
    intro cur att acc r att2 acc2 heq
    rw [tryRules] at heq
    by_cases hp : pages f (normalizeWhitespace (applyTrimRule cur rl)) = 1
    · rw [if_pos hp] at heq
      obtain ⟨h1, h2, h3⟩ := Prod.mk.injEq _ _ _ _ ▸ heq
      cases heq
      refine ⟨rfl, rfl, ⟨rl, List.mem_cons_self rl rs, rfl⟩, 1, by simp, ?_⟩
      rw [ruleSchedule]
      simp
    · rw [if_neg hp] at heq
      obtain ⟨h0, hAcc, hRule, k, hkle, hk⟩ := ih _ _ _ _ _ _ heq
      refine ⟨h0, hAcc, ?_, k + 1, by simpa using hkle, ?_⟩
      · obtain ⟨rule, hm, hp2⟩ := hRule
        exact ⟨rule, List.mem_cons_of_mem rl hm, hp2⟩
      · rw [hk, ruleSchedule]
        simp [List.take_succ_cons]

theorem tryRules_none (pages : Nat → List String → Nat) (f : Nat) :
    ∀ (rules : List TrimRule) (cur : List String) (att : Nat)
      (acc : List (List String)) (att2 : Nat) (acc2 : List (List String)),
      tryRules pages f cur rules att acc = (none, att2, acc2) →
      acc2 = acc ++ ruleSchedule cur rules ∧ att2 = att + rules.length := by
  intro rules
  induction rules with
  | nil =>
    intro cur att acc att2 acc2 heq
    simp only [tryRules, Prod.mk.injEq] at heq
    obtain ⟨_, h2, h3⟩ := heq
    simp [ruleSchedule, ← h2, ← h3]
  | cons rl rs ih =>
    intro cur att acc att2 acc2 heq
    rw [tryRules] at heq
    by_cases hp : pages f (normalizeWhitespace (applyTrimRule cur rl)) = 1
    · rw [if_pos hp] at heq
      cases heq
    · rw [if_neg hp] at heq
      obtain ⟨h1, h2⟩ := ih _ _ _ _ _ heq
      constructor
      · rw [h1, ruleSchedule]
        simp
      · rw [h2, List.length_cons]
        omega

theorem tryRules_all_big (pages : Nat → List String → Nat) (f : Nat)
    (hbig : ∀ l, pages f l ≠ 1) :
    ∀ (rules : List TrimRule) (cur : List String) (att : Nat)
      (acc : List (List String)),
      tryRules pages f cur rules att acc =
        (none, att + rules.length, acc ++ ruleSchedule cur rules) := by
  intro rules
  induction rules with
  | nil => intro cur att acc; simp [tryRules, ruleSchedule]
  | cons rl rs ih =>
    intro cur att acc
    rw [tryRules, if_neg (hbig _), ih, ruleSchedule]
    simp
    omega

theorem runProfiles_attemptLines (pages : Nat → List String → Nat)
    (base : List String) :
    ∀ (fs : List Nat) (att : Nat) (acc : List (List String)),
      ∃ k, (runProfiles pages base fs att acc).attemptLines =
        acc ++ (fs.flatMap (fun _ => profileSchedule base)).take k := by
  intro fs
  induction fs with
  | nil =>
    intro att acc
    exact ⟨0, by simp [runProfiles]⟩
  | cons f rest ih =>
    intro att acc
    rw [runProfiles]
    by_cases hp : pages f base = 1
    · rw [if_pos hp]
      refine ⟨1, ?_⟩
      simp [profileSchedule]
    · rw [if_neg hp]
      rcases htr : tryRules pages f base TRIM_RULES (att + 1) (acc ++ [base]) with
        ⟨ores, att2, acc2⟩
      cases ores with
      | some r =>
        obtain ⟨_, hAcc, _, k, hkle, hk⟩ := tryRules_some pages f _ _ _ _ _ _ _ htr
        refine ⟨k + 1, ?_⟩
        simp only [hAcc, hk]
        rw [List.flatMap_cons, profileSchedule, List.cons_append,
          List.take_succ_cons,
          List.take_append_of_le_length (by rw [ruleSchedule_length]; exact hkle)]
        simp
      | none =>
        obtain ⟨hAcc, hAtt⟩ := tryRules_none pages f _ _ _ _ _ _ htr
        obtain ⟨k2, hk2⟩ := ih att2 acc2
        refine ⟨1 + TRIM_RULES.length + k2, ?_⟩
        rw [hk2, hAcc]
        rw [List.flatMap_cons, profileSchedule, List.cons_append]
        have h1 : 1 + TRIM_RULES.length + k2 =
            ((ruleSchedule base TRIM_RULES).length + k2) + 1 := by
          rw [ruleSchedule_length]
          omega
        rw [h1, List.take_succ_cons, List.take_append]
        simp

theorem runProfiles_exit0 (pages : Nat → List String → Nat) (base : List String) :
    ∀ (fs : List Nat) (att : Nat) (acc : List (List String)),
      (runProfiles pages base fs att acc).exitCode = 0 →
      (runProfiles pages base fs att acc).printed =
          [okNoTrimMsg (runProfiles pages base fs att acc).attempts] ∨
        ∃ rule, rule ∈ TRIM_RULES ∧
          (runProfiles pages base fs att acc).printed =
            [okTrimMsg rule (runProfiles pages base fs att acc).attempts] := by
  intro fs
  induction fs with
  | nil =>
    intro att acc h
    simp [runProfiles] at h
  | cons f rest ih =>
    intro att acc
    rw [runProfiles]
    by_cases hp : pages f base = 1
    · rw [if_pos hp]
      intro _
      left
      rfl
    · rw [if_neg hp]
      rcases htr : tryRules pages f base TRIM_RULES (att + 1) (acc ++ [base]) with
        ⟨ores, att2, acc2⟩
      cases ores with
      | some r =>
        intro _
        obtain ⟨_, _, ⟨rule, hm, hpr⟩, _⟩ := tryRules_some pages f _ _ _ _ _ _ _ htr
        exact Or.inr ⟨rule, hm, hpr⟩
      | none =>
        intro h
        exact ih att2 acc2 h

theorem runProfiles_exhaust (pages : Nat → List String → Nat) (base : List String)
    (hbig : ∀ f l, pages f l ≠ 1) :
    ∀ (fs : List Nat) (att : Nat) (acc : List (List String)),
      runProfiles pages base fs att acc =
        ⟨3, [exhaustMsg1, exhaustMsg2], att + fs.length * (1 + TRIM_RULES.length),
          acc ++ fs.flatMap (fun _ => profileSchedule base)⟩ := by
  intro fs
  induction fs with
  | nil => intro att acc; simp [runProfiles]
  | cons f rest ih =>
    intro att acc
    rw [runProfiles, if_neg (hbig f base),
      tryRules_all_big pages f (hbig f) TRIM_RULES base (att + 1) (acc ++ [base])]
    show runProfiles pages base rest (att + 1 + TRIM_RULES.length)
        (acc ++ [base] ++ ruleSchedule base TRIM_RULES) = _
    rw [ih]
    simp only [RunResult.mk.injEq, List.flatMap_cons, profileSchedule]
    refine ⟨trivial, trivial, ?_, by simp⟩
    have hL : TRIM_RULES.length = 6 := rfl
    rw [hL]
    simp
    omega


/-- **C3.** Within one profile the rules are applied in their fixed
order cumulatively, each application followed by re-normalization (that
is the recurrence defining `ruleSchedule`), and the next profile
restarts the rule list on the *original* normalized document: every
run's attempt log is a prefix of `fullSchedule`, which is two copies of
the same per-profile schedule starting from the normalized input. -/
theorem controller_schedule_c3 (argv raw : List String)
    (pages : Nat → List String → Nat) (h4 : argv.length = 4) :
    (∃ k, (mainModel argv true raw pages).attemptLines =
      (fullSchedule (normalizeWhitespace raw)).take k) ∧
    fullSchedule (normalizeWhitespace raw) =
      profileSchedule (normalizeWhitespace raw) ++
        profileSchedule (normalizeWhitespace raw) ∧
    ∀ (cur : List String) (r : TrimRule) (rs : List TrimRule),
      ruleSchedule cur (r :: rs) =
        normalizeWhitespace (applyTrimRule cur r) ::
          ruleSchedule (normalizeWhitespace (applyTrimRule cur r)) rs := by
  refine ⟨?_, by simp [fullSchedule, fmtIndices], fun _ _ _ => rfl⟩
  rw [mainModel, if_neg (by omega), if_neg (by decide)]
  obtain ⟨k, hk⟩ := runProfiles_attemptLines pages (normalizeWhitespace raw)
    fmtIndices 0 []
  exact ⟨k, by simpa [fullSchedule] using hk⟩

theorem controller_schedule_c3_witness :
    ∃ k, (mainModel ["p", "in.md", "o.docx", "o.pdf"] true []
        (fun _ _ => 2)).attemptLines =
      (fullSchedule (normalizeWhitespace [])).take k :=
  (controller_schedule_c3 ["p", "in.md", "o.docx", "o.pdf"] [] (fun _ _ => 2) rfl).1

/-- **C2 (counterexample).** The claim fails as stated: when the
controller advances to the second formatting profile it resets the line
sequence to the original normalized document, which is *longer* than the
trimmed sequence of the previous attempt.  With a page oracle that never
reports one page and an input whose third project is trimmed away, the
run's attempt lengths go `6,6,5,5,5,5,5` and then back up to `6`. -/
theorem monotone_attempts_cx :
    ¬ claimMonotoneAttempts ["p", "in.md", "o.docx", "o.pdf"] true
      ["## TECHNICAL PROJECTS", "### A", "- x", "### B", "- y", "### C"]
      (fun _ _ => 2) := by
  unfold claimMonotoneAttempts
  decide

/-- **C2 (amended).** Within a single formatting profile the attempt
sequence is monotonically non-growing (each rule application plus
normalization only removes lines); the run's attempts follow a prefix of
two copies of that per-profile schedule, and at the profile boundary the
sequence resets to the original normalized document (the head of the
schedule), which may be longer than the last trimmed sequence. -/
theorem monotone_attempts_amended (argv raw : List String)
    (pages : Nat → List String → Nat) (h4 : argv.length = 4) :
    (∃ k, (mainModel argv true raw pages).attemptLines =
      (profileSchedule (normalizeWhitespace raw) ++
        profileSchedule (normalizeWhitespace raw)).take k) ∧
    nonGrowing (profileSchedule (normalizeWhitespace raw)) = true ∧
    (profileSchedule (normalizeWhitespace raw)).head? =
      some (normalizeWhitespace raw) := by
  refine ⟨?_, ruleSchedule_nonGrowing TRIM_RULES _, rfl⟩
  rw [mainModel, if_neg (by omega), if_neg (by decide)]
  obtain ⟨k, hk⟩ := runProfiles_attemptLines pages (normalizeWhitespace raw)
    fmtIndices 0 []
  refine ⟨k, ?_⟩
  rw [hk]
  simp [fmtIndices]

theorem monotone_attempts_amended_witness :
    nonGrowing (profileSchedule (normalizeWhitespace ["## X", "- a"])) = true :=
  (monotone_attempts_amended ["p", "in.md", "o.docx", "o.pdf"] ["## X", "- a"]
    (fun _ _ => 2) rfl).2.1

/-- **C7.** The command-line behavior: wrong argument count prints the
usage line and exits 2 with no render attempts; a missing source prints
the not-found message and exits 1 with no render attempts; an exit-0 run
prints exactly one message naming its attempt count (and the triggering
rule when trimming was needed); and when no profile/rule combination
reaches one page the run prints the failure message plus the suggestion,
exits 3 after all 14 attempts, and its attempt log (the artifacts left
on disk) is the full schedule. -/
theorem cli_behavior_c7 (argv : List String) (srcExists : Bool)
    (raw : List String) (pages : Nat → List String → Nat) :
    (argv.length ≠ 4 →
      mainModel argv srcExists raw pages = ⟨2, [usageMsg], 0, []⟩) ∧
    (argv.length = 4 → srcExists = false →
      mainModel argv srcExists raw pages = ⟨1, [notFoundMsg argv], 0, []⟩) ∧
    ((mainModel argv srcExists raw pages).exitCode = 0 →
      (mainModel argv srcExists raw pages).printed =
          [okNoTrimMsg (mainModel argv srcExists raw pages).attempts] ∨
        ∃ rule, rule ∈ TRIM_RULES ∧
          (mainModel argv srcExists raw pages).printed =
            [okTrimMsg rule (mainModel argv srcExists raw pages).attempts]) ∧
    (argv.length = 4 → srcExists = true → (∀ f l, pages f l ≠ 1) →
      mainModel argv srcExists raw pages =
        ⟨3, [exhaustMsg1, exhaustMsg2], 14,
          fullSchedule (normalizeWhitespace raw)⟩) := by
  refine ⟨?_, ?_, ?_, ?_⟩
  · intro h
    rw [mainModel, if_pos h]
  · intro h4 hs
    subst hs
    rw [mainModel, if_neg (by omega), if_pos (by decide)]
  · by_cases h4 : argv.length ≠ 4
    · rw [mainModel, if_pos h4]
      intro h
      simp at h
    · cases hs : srcExists with
      | false =>
        rw [mainModel, if_neg h4, if_pos (by decide)]
        intro h
        simp at h
      | true =>
        rw [mainModel, if_neg h4, if_neg (by decide)]
        exact runProfiles_exit0 pages _ fmtIndices 0 []
  · intro h4 hs hbig
    subst hs
    rw [mainModel, if_neg (by omega), if_neg (by decide)]
    rw [runProfiles_exhaust pages _ hbig fmtIndices 0 []]
    simp only [RunResult.mk.injEq]
    refine ⟨trivial, trivial, by decide, by simp [fullSchedule]⟩

theorem cli_behavior_c7_witness :
    mainModel ["p"] true [] (fun _ _ => 2) = ⟨2, [usageMsg], 0, []⟩ ∧
    mainModel ["p", "in.md", "o.docx", "o.pdf"] true [] (fun _ _ => 2) =
      ⟨3, [exhaustMsg1, exhaustMsg2], 14, fullSchedule (normalizeWhitespace [])⟩ :=
  ⟨(cli_behavior_c7 ["p"] true [] (fun _ _ => 2)).1 (by decide),
   (cli_behavior_c7 ["p", "in.md", "o.docx", "o.pdf"] true []
      (fun _ _ => 2)).2.2.2 rfl rfl (fun _ _ => by decide)⟩

end Resume
